import Mathlib

/-!
Shallow embedding of the jdftx crystal-symmetry engine (Symmetries.cpp):
lattice-symmetry search with basis reduction, atom-compatibility filtering,
grid commensurability, k-mesh checking, atom maps and field symmetrization.

Real (`double`) arithmetic is modelled over `ℚ`; machine integers over `ℤ`.
3-vectors and 3x3 matrices are functions out of `Fin 3`, mirroring
`vector3<>` / `matrix3<>`.
-/

/-- A 3-vector, as in `vector3<T>`. -/
abbrev V3 (α : Type) := Fin 3 → α

/-- A 3x3 matrix, as in `matrix3<T>`. -/
abbrev M3 (α : Type) := Fin 3 → Fin 3 → α

/-- Build a 3-vector from components. -/
def mkV {α : Type} (a b c : α) : V3 α := fun r => match r with
  | 0 => a
  | 1 => b
  | 2 => c

/-- Build a 3x3 matrix from its nine entries (row major, like `matrix3<T>`). -/
def mk3 {α : Type} (a b c d e f g h i : α) : M3 α := fun r s => match r, s with
  | 0, 0 => a
  | 0, 1 => b
  | 0, 2 => c
  | 1, 0 => d
  | 1, 1 => e
  | 1, 2 => f
  | 2, 0 => g
  | 2, 1 => h
  | 2, 2 => i

/-- Modelled from the spec: `matrix3` multiplication (`core/matrix3.h` is not in
the source tree; the spec lists multiplication among the lattice geometry
primitives). -/
def mulG {α : Type} [Mul α] [Add α] (A B : M3 α) : M3 α :=
  fun i j => A i 0 * B 0 j + A i 1 * B 1 j + A i 2 * B 2 j

/-- Modelled from the spec: matrix-vector product of the geometry primitives. -/
def mulMV {α : Type} [Mul α] [Add α] (A : M3 α) (v : V3 α) : V3 α :=
  fun i => A i 0 * v 0 + A i 1 * v 1 + A i 2 * v 2

/-- Modelled from the spec: transpose, written `~m` in the source. -/
def transpG {α : Type} (A : M3 α) : M3 α := fun i j => A j i

/-- Entry-wise cast of an integer matrix to a rational one (implicit
`matrix3<int>` to `matrix3<>` conversions in the source). -/
def castM (A : M3 ℤ) : M3 ℚ := fun i j => ((A i j : ℤ) : ℚ)

/-- The identity matrix, `matrix3<int>(1,1,1)` in the source. -/
def idM : M3 ℤ := mk3 1 0 0 0 1 0 0 0 1

/-- The rational identity matrix. -/
def idMQ : M3 ℚ := mk3 1 0 0 0 1 0 0 0 1

/-- The zero integer matrix (used as an out-of-range access default). -/
def zeroM : M3 ℤ := mk3 0 0 0 0 0 0 0 0 0

/-- The zero 3-vector. -/
def zeroV : V3 ℚ := mkV 0 0 0

/-- Modelled from the spec: `Diag(S)`, the diagonal matrix of a 3-vector. -/
def diagM (S : V3 ℤ) : M3 ℤ := fun i j => if i = j then S i else 0

/-- Squared Frobenius norm of a rational matrix.  The source's `nrm2` (the
"Frobenius-style norm" of the spec's geometry primitives, not in the source
tree) is its square root; comparisons `nrm2 x < c` are embedded sqrt-free as
`nrm2Sq x < c^2`, and the bridge to the real square root is proved below. -/
def nrm2Sq (A : M3 ℚ) : ℚ :=
  A 0 0 ^ 2 + A 0 1 ^ 2 + A 0 2 ^ 2 +
  A 1 0 ^ 2 + A 1 1 ^ 2 + A 1 2 ^ 2 +
  A 2 0 ^ 2 + A 2 1 ^ 2 + A 2 2 ^ 2

/-- `MIN_SYMM_TOL` (1e-4). -/
def tolQ : ℚ := 1 / 10000

/-- `MIN_KPT_DISTANCE` (1e-8). -/
def kptTol : ℚ := 1 / 100000000

/-- Modelled from the spec: one component of the minimum-image reduction used
by the periodic "circular distance" (`x - floor(0.5 + x)`, i.e. `x` minus its
nearest integer). -/
def wrapQ (x : ℚ) : ℚ := x - round x

/-- Modelled from the spec: `circDistanceSquared`, the squared distance between
two lattice-coordinate vectors under the minimum-image convention (the
`vector3` helper is not in the source tree; the spec describes it as the
periodic wraparound distance). -/
def circDistanceSquared (a b : V3 ℚ) : ℚ :=
  wrapQ (a 0 - b 0) ^ 2 + wrapQ (a 1 - b 1) ^ 2 + wrapQ (a 2 - b 2) ^ 2

/-! ### Basic algebraic lemmas about the geometry primitives -/

theorem mulG_assoc {α : Type} [CommRing α] (A B C : M3 α) :
    mulG (mulG A B) C = mulG A (mulG B C) := by
  funext i j
  simp only [mulG]
  ring

theorem idM_mulG (A : M3 ℤ) : mulG idM A = A := by
  funext i j
  fin_cases i <;> simp [mulG, idM, mk3]

theorem mulG_idM (A : M3 ℤ) : mulG A idM = A := by
  funext i j
  fin_cases j <;> simp [mulG, idM, mk3]

theorem idMQ_mulG (A : M3 ℚ) : mulG idMQ A = A := by
  funext i j
  fin_cases i <;> simp [mulG, idMQ, mk3]

theorem mulG_idMQ (A : M3 ℚ) : mulG A idMQ = A := by
  funext i j
  fin_cases j <;> simp [mulG, idMQ, mk3]

theorem castM_mulG (A B : M3 ℤ) : castM (mulG A B) = mulG (castM A) (castM B) := by
  funext i j
  simp only [castM, mulG]
  push_cast
  ring

theorem castM_idM : castM idM = idMQ := by
  funext i j
  fin_cases i <;> fin_cases j <;> rfl

theorem mulMV_idMQ (v : V3 ℚ) : mulMV idMQ v = v := by
  funext i
  fin_cases i <;> simp [mulMV, idMQ, mk3]

theorem nrm2Sq_nonneg (A : M3 ℚ) : 0 ≤ nrm2Sq A := by
  unfold nrm2Sq
  positivity

theorem circDistanceSquared_self (v : V3 ℚ) : circDistanceSquared v v = 0 := by
  simp [circDistanceSquared, wrapQ]

theorem transpG_idM : transpG idM = idM := by
  funext i j
  fin_cases i <;> fin_cases j <;> rfl

/-! ### Basis reduction loop (`Symmetries::latticeSymmetries`, first half)

The source iteratively combines lattice vectors: `d` adds `i` copies of the
`k2`-nd and `j` copies of the `k3`-rd lattice vector to the `k1`-st, and the
transformation is kept whenever it reduces `nrm2(R)` by more than
`MIN_SYMM_TOL`. -/

/-- The elementary transformation `d` with `d(k2,k1)=i`, `d(k3,k1)=j` on top of
the identity, where `k2 = (k1+1)%3` and `k3 = (k1+2)%3`. -/
def elemD (k1 : Fin 3) (i j : ℤ) : M3 ℤ := fun r c =>
  if r = c then 1
  else if r = k1 + 1 ∧ c = k1 then i
  else if r = k1 + 2 ∧ c = k1 then j
  else 0

/-- Sqrt-free decision of `nrm2(Rproposed) < nrm2(Rreduced) - MIN_SYMM_TOL`,
taking the squared norms `a = nrm2Sq Rproposed` and `b = nrm2Sq Rreduced`
(equivalence with the square-root form is `acceptB_iff_sqrt`). -/
def acceptB (a b : ℚ) : Bool :=
  decide (0 < b - a - tolQ ^ 2) && decide (4 * tolQ ^ 2 * a < (b - a - tolQ ^ 2) ^ 2)

/-- State of the reduction loop: current `Rreduced`, the accumulated
`transmission` and `invTransmission` matrices, and the sweep's `changed` flag. -/
structure RState where
  R : M3 ℚ
  T : M3 ℤ
  Tinv : M3 ℤ
  changed : Bool

/-- One candidate transformation of the sweep (body of the three inner loops). -/
def sweepStep (s : RState) (t : Fin 3 × ℤ × ℤ) : RState :=
  let d := elemD t.1 t.2.1 t.2.2
  let dInv := elemD t.1 (-t.2.1) (-t.2.2)
  let Rp := mulG s.R (castM d)
  if acceptB (nrm2Sq Rp) (nrm2Sq s.R) then
    { R := Rp, T := mulG s.T d, Tinv := mulG dInv s.Tinv, changed := true }
  else s

/-- The 27 loop triples `(k1, i, j)` in source order. -/
def sweepTriples : List (Fin 3 × ℤ × ℤ) :=
  [0, 1, 2].flatMap fun k1 =>
    [-1, 0, 1].flatMap fun i => [-1, 0, 1].map fun j => ((k1 : Fin 3), i, j)

/-- One full sweep of the `while` body (resets `changed`, tries all triples). -/
def sweep (s : RState) : RState := sweepTriples.foldl sweepStep { s with changed := false }

/-- The `while(true)` loop with explicit fuel: `none` means the fuel ran out. -/
def reduceLoop : ℕ → RState → Option RState
  | 0, _ => none
  | n + 1, s =>
    let s1 := sweep s
    if s1.changed then reduceLoop n s1 else some s1

/-- Initial loop state: `Rreduced = R`, `transmission = invTransmission = 1`. -/
def initRState (R : M3 ℚ) : RState := ⟨R, idM, idM, false⟩

/-- Sufficient fuel for the reduction loop on input `R` (proved sufficient in
`reduceLoop_isSome`). -/
def fuelFor (R : M3 ℚ) : ℕ := Nat.ceil (nrm2Sq R * 100000000) + 1

/-- The completed basis reduction (the fuel is provably sufficient, so the
default is never taken). -/
def reduceBasis (R : M3 ℚ) : RState :=
  (reduceLoop (fuelFor R) (initRState R)).getD (initRState R)

theorem acceptB_decrease {a b : ℚ} (h : acceptB a b = true) : a < b - 1 / 100000000 := by
  have h1 : (0 : ℚ) < b - a - tolQ ^ 2 := by
    have := (Bool.and_eq_true _ _).mp h
    exact of_decide_eq_true this.1
  have ht : tolQ ^ 2 = 1 / 100000000 := by norm_num [tolQ]
  linarith [h1, ht ▸ h1]

theorem acceptB_iff_sqrt (a b : ℚ) (ha : 0 ≤ a) :
    acceptB a b = true ↔ Real.sqrt (a : ℝ) < Real.sqrt (b : ℝ) - 1 / 10000 := by
  have hQ : acceptB a b = true ↔
      (0 : ℚ) < b - a - tolQ ^ 2 ∧ 4 * tolQ ^ 2 * a < (b - a - tolQ ^ 2) ^ 2 := by
    simp [acceptB]
  have htol : ((tolQ : ℚ) : ℝ) = 1 / 10000 := by norm_num [tolQ]
  have haR : (0 : ℝ) ≤ (a : ℝ) := by exact_mod_cast ha
  have hsa : Real.sqrt (a : ℝ) ^ 2 = (a : ℝ) := Real.sq_sqrt haR
  have hsa0 : (0 : ℝ) ≤ Real.sqrt (a : ℝ) := Real.sqrt_nonneg _
  constructor
  · intro h
    obtain ⟨h1, h2⟩ := hQ.mp h
    have h1R : (0 : ℝ) < (b : ℝ) - (a : ℝ) - (1 / 10000) ^ 2 := by
      have := (Rat.cast_lt (K := ℝ)).mpr h1
      push_cast at this
      rw [htol] at this
      linarith
    have h2R : 4 * (1 / 10000 : ℝ) ^ 2 * (a : ℝ) < ((b : ℝ) - (a : ℝ) - (1 / 10000) ^ 2) ^ 2 := by
      have := (Rat.cast_lt (K := ℝ)).mpr h2
      push_cast at this
      rw [htol] at this
      linarith
    -- from the two rational facts: 2 t sqrt a < u, hence (sqrt a + t)^2 < b
    set u : ℝ := (b : ℝ) - (a : ℝ) - (1 / 10000) ^ 2 with hu
    have hlin : 2 * (1 / 10000 : ℝ) * Real.sqrt (a : ℝ) < u := by
      have hsq : (2 * (1 / 10000 : ℝ) * Real.sqrt (a : ℝ)) ^ 2 < u ^ 2 := by
        have : (2 * (1 / 10000 : ℝ) * Real.sqrt (a : ℝ)) ^ 2
            = 4 * (1 / 10000 : ℝ) ^ 2 * (a : ℝ) := by
          rw [mul_pow, mul_pow, hsa]; ring
        rw [this]; exact h2R
      by_contra hcon
      push_neg at hcon
      have hsq2 : u ^ 2 ≤ (2 * (1 / 10000 : ℝ) * Real.sqrt (a : ℝ)) ^ 2 := by
        have h0u : (0 : ℝ) ≤ u := le_of_lt h1R
        exact pow_le_pow_left h0u hcon 2
      linarith [hsq, hsq2]
    have hsum : (Real.sqrt (a : ℝ) + 1 / 10000) ^ 2 < (b : ℝ) := by
      have : (Real.sqrt (a : ℝ) + 1 / 10000) ^ 2
          = (a : ℝ) + 2 * (1 / 10000) * Real.sqrt (a : ℝ) + (1 / 10000) ^ 2 := by
        rw [add_sq, hsa]; ring
      rw [this]; rw [hu] at hlin; linarith
    have := (Real.lt_sqrt (by positivity : (0 : ℝ) ≤ Real.sqrt (a : ℝ) + 1 / 10000)).mpr hsum
    linarith
  · intro h
    have hsb0 : (0 : ℝ) < Real.sqrt (b : ℝ) := by
      have : (1 / 10000 : ℝ) ≤ Real.sqrt (a : ℝ) + 1 / 10000 := by linarith
      linarith
    have hbR : (0 : ℝ) < (b : ℝ) := Real.sqrt_pos.mp hsb0
    have hsb : Real.sqrt (b : ℝ) ^ 2 = (b : ℝ) := Real.sq_sqrt (le_of_lt hbR)
    have hsum : (Real.sqrt (a : ℝ) + 1 / 10000) ^ 2 < (b : ℝ) := by
      have hlt : Real.sqrt (a : ℝ) + 1 / 10000 < Real.sqrt (b : ℝ) := by linarith
      have h0 : (0 : ℝ) ≤ Real.sqrt (a : ℝ) + 1 / 10000 := by positivity
      calc (Real.sqrt (a : ℝ) + 1 / 10000) ^ 2 < Real.sqrt (b : ℝ) ^ 2 := by
            exact pow_lt_pow_left hlt h0 (by norm_num)
        _ = (b : ℝ) := hsb
    have hexp : (a : ℝ) + 2 * (1 / 10000) * Real.sqrt (a : ℝ) + (1 / 10000) ^ 2 < (b : ℝ) := by
      have : (Real.sqrt (a : ℝ) + 1 / 10000) ^ 2
          = (a : ℝ) + 2 * (1 / 10000) * Real.sqrt (a : ℝ) + (1 / 10000) ^ 2 := by
        rw [add_sq, hsa]; ring
      linarith [this ▸ hsum]
    have h1R : (0 : ℝ) < (b : ℝ) - (a : ℝ) - (1 / 10000) ^ 2 := by nlinarith [hsa0]
    have h2R : 4 * (1 / 10000 : ℝ) ^ 2 * (a : ℝ) < ((b : ℝ) - (a : ℝ) - (1 / 10000) ^ 2) ^ 2 := by
      nlinarith [hsa0, hsa]
    refine hQ.mpr ⟨?_, ?_⟩
    · have : ((b - a - tolQ ^ 2 : ℚ) : ℝ) = (b : ℝ) - (a : ℝ) - (1 / 10000) ^ 2 := by
        push_cast; rw [htol]
      exact_mod_cast (this ▸ h1R : (0 : ℝ) < ((b - a - tolQ ^ 2 : ℚ) : ℝ))
    · have hcast : ((4 * tolQ ^ 2 * a : ℚ) : ℝ) = 4 * (1 / 10000 : ℝ) ^ 2 * (a : ℝ) := by
        push_cast; rw [htol]
      have hcast2 : (((b - a - tolQ ^ 2) ^ 2 : ℚ) : ℝ) = ((b : ℝ) - (a : ℝ) - (1 / 10000) ^ 2) ^ 2 := by
        push_cast; rw [htol]
      rw [← hcast, ← hcast2] at h2R
      exact_mod_cast h2R

theorem sweepStep_le (s : RState) (t : Fin 3 × ℤ × ℤ) :
    nrm2Sq (sweepStep s t).R ≤ nrm2Sq s.R := by
  unfold sweepStep
  by_cases hacc : acceptB (nrm2Sq (mulG s.R (castM (elemD t.1 t.2.1 t.2.2)))) (nrm2Sq s.R) = true
  · simp only [hacc, if_true]
    have := acceptB_decrease hacc
    linarith
  · simp only [Bool.not_eq_true] at hacc
    simp [hacc]

theorem sweepStep_changed (s : RState) (t : Fin 3 × ℤ × ℤ)
    (h : (sweepStep s t).changed = true) :
    s.changed = true ∨ nrm2Sq (sweepStep s t).R < nrm2Sq s.R - 1 / 100000000 := by
  unfold sweepStep at h ⊢
  by_cases hacc : acceptB (nrm2Sq (mulG s.R (castM (elemD t.1 t.2.1 t.2.2)))) (nrm2Sq s.R) = true
  · right
    simp only [hacc, if_true]
    exact acceptB_decrease hacc
  · left
    simp only [Bool.not_eq_true] at hacc
    simpa [hacc] using h

theorem sweepFold_le (l : List (Fin 3 × ℤ × ℤ)) (s : RState) :
    nrm2Sq (l.foldl sweepStep s).R ≤ nrm2Sq s.R := by
  induction l generalizing s with
  | nil => exact le_refl _
  | cons t l ih =>
    calc nrm2Sq ((t :: l).foldl sweepStep s).R = nrm2Sq (l.foldl sweepStep (sweepStep s t)).R := rfl
      _ ≤ nrm2Sq (sweepStep s t).R := ih _
      _ ≤ nrm2Sq s.R := sweepStep_le s t

theorem sweepFold_changed (l : List (Fin 3 × ℤ × ℤ)) (s : RState)
    (hs : s.changed = false) (h : (l.foldl sweepStep s).changed = true) :
    nrm2Sq (l.foldl sweepStep s).R < nrm2Sq s.R - 1 / 100000000 := by
  induction l generalizing s with
  | nil => rw [List.foldl_nil] at h; rw [hs] at h; cases h
  | cons t l ih =>
    rw [List.foldl_cons] at h ⊢
    by_cases h1 : (sweepStep s t).changed = true
    · have hd := sweepStep_changed s t h1
      rw [hs] at hd
      have hd2 : nrm2Sq (sweepStep s t).R < nrm2Sq s.R - 1 / 100000000 := by
        rcases hd with h' | h'
        · cases h'
        · exact h'
      have := sweepFold_le l (sweepStep s t)
      linarith
    · simp only [Bool.not_eq_true] at h1
      have := ih (sweepStep s t) h1 h
      have hle := sweepStep_le s t
      linarith

theorem sweep_le (s : RState) : nrm2Sq (sweep s).R ≤ nrm2Sq s.R :=
  sweepFold_le sweepTriples { s with changed := false }

theorem sweep_changed (s : RState) (h : (sweep s).changed = true) :
    nrm2Sq (sweep s).R < nrm2Sq s.R - 1 / 100000000 :=
  sweepFold_changed sweepTriples { s with changed := false } rfl h

/-- Termination measure for the reduction loop. -/
def rMeasure (s : RState) : ℕ := Nat.ceil (nrm2Sq s.R * 100000000)

theorem rMeasure_lt {s s2 : RState} (h : nrm2Sq s2.R < nrm2Sq s.R - 1 / 100000000) :
    rMeasure s2 < rMeasure s := by
  have h2 : nrm2Sq s2.R * 100000000 < nrm2Sq s.R * 100000000 - 1 := by nlinarith
  have h0 : (0 : ℚ) ≤ nrm2Sq s2.R * 100000000 := by
    have := nrm2Sq_nonneg s2.R
    positivity
  have hceil : (Nat.ceil (nrm2Sq s2.R * 100000000) : ℚ) < nrm2Sq s2.R * 100000000 + 1 :=
    Nat.ceil_lt_add_one h0
  have hle : nrm2Sq s.R * 100000000 ≤ (Nat.ceil (nrm2Sq s.R * 100000000) : ℚ) :=
    Nat.le_ceil _
  have : (Nat.ceil (nrm2Sq s2.R * 100000000) : ℚ) < (Nat.ceil (nrm2Sq s.R * 100000000) : ℚ) := by
    linarith
  exact_mod_cast this

theorem reduceLoop_isSome : ∀ (n : ℕ) (s : RState), rMeasure s < n →
    (reduceLoop n s).isSome = true := by
  intro n
  induction n with
  | zero => intro s hs; omega
  | succ n ih =>
    intro s hs
    by_cases h1 : (sweep s).changed = true
    · have hdec := sweep_changed s h1
      have hm := rMeasure_lt hdec
      have : rMeasure (sweep s) < n := by omega
      simpa [reduceLoop, h1] using ih (sweep s) this
    · simp only [Bool.not_eq_true] at h1
      simp [reduceLoop, h1]

theorem reduceBasis_isSome (R : M3 ℚ) :
    (reduceLoop (fuelFor R) (initRState R)).isSome = true := by
  apply reduceLoop_isSome
  show rMeasure (initRState R) < rMeasure (initRState R) + 1
  exact Nat.lt_succ_self _

/-- Each elementary transformation is inverted by its recorded inverse. -/
theorem elemD_mul_inv (k1 : Fin 3) (i j : ℤ) :
    mulG (elemD k1 i j) (elemD k1 (-i) (-j)) = idM := by
  funext r c
  fin_cases k1 <;> fin_cases r <;> fin_cases c <;>
    simp [mulG, elemD, idM, mk3]

theorem sweepStep_TTinv {s : RState} (h : mulG s.T s.Tinv = idM) (t : Fin 3 × ℤ × ℤ) :
    mulG (sweepStep s t).T (sweepStep s t).Tinv = idM := by
  unfold sweepStep
  by_cases hacc : acceptB (nrm2Sq (mulG s.R (castM (elemD t.1 t.2.1 t.2.2)))) (nrm2Sq s.R) = true
  · simp only [hacc, if_true]
    rw [mulG_assoc, ← mulG_assoc (elemD t.1 t.2.1 t.2.2), elemD_mul_inv, idM_mulG, h]
  · simp only [Bool.not_eq_true] at hacc
    simpa [hacc] using h

theorem sweepFold_TTinv (l : List (Fin 3 × ℤ × ℤ)) (s : RState)
    (h : mulG s.T s.Tinv = idM) : mulG (l.foldl sweepStep s).T (l.foldl sweepStep s).Tinv = idM := by
  induction l generalizing s with
  | nil => exact h
  | cons t l ih => exact ih (sweepStep s t) (sweepStep_TTinv h t)

theorem reduceLoop_TTinv : ∀ (n : ℕ) (s s2 : RState), mulG s.T s.Tinv = idM →
    reduceLoop n s = some s2 → mulG s2.T s2.Tinv = idM := by
  intro n
  induction n with
  | zero => intro s s2 _ hr; cases hr
  | succ n ih =>
    intro s s2 h hr
    have hsw : mulG (sweep s).T (sweep s).Tinv = idM := sweepFold_TTinv sweepTriples _ h
    by_cases h1 : (sweep s).changed = true
    · simp only [reduceLoop, h1, if_true] at hr
      exact ih (sweep s) s2 hsw hr
    · simp only [Bool.not_eq_true] at h1
      simp only [reduceLoop, h1, Bool.false_eq_true, if_false, Option.some.injEq] at hr
      rw [← hr]
      exact hsw

theorem reduceBasis_TTinv (R : M3 ℚ) :
    mulG (reduceBasis R).T (reduceBasis R).Tinv = idM := by
  unfold reduceBasis
  rcases hr : reduceLoop (fuelFor R) (initRState R) with _ | s2
  · simp only [Option.getD_none]
    exact mulG_idM idM
  · simp only [Option.getD_some]
    exact reduceLoop_TTinv _ _ _ (mulG_idM idM) hr

/-! ### Candidate enumeration and metric test (`Symmetries::latticeSymmetries`,
second half) -/

/-- The entry range `-1..1` of the nine nested `iLOOP`s. -/
def spanZ : List ℤ := [-1, 0, 1]

/-- All 3^9 = 19683 integer matrices with entries in `{-1,0,1}`, in the
source's loop order (row-major, last entry fastest). -/
def latticeCandidates : List (M3 ℤ) :=
  spanZ.flatMap fun a => spanZ.flatMap fun b => spanZ.flatMap fun c =>
  spanZ.flatMap fun d => spanZ.flatMap fun e => spanZ.flatMap fun f =>
  spanZ.flatMap fun g => spanZ.flatMap fun h => spanZ.map fun i =>
  mk3 a b c d e f g h i

/-- The metric tensor `(~R)*R` of a lattice basis. -/
def metricOf (A : M3 ℚ) : M3 ℚ := mulG (transpG A) A

/-- The acceptance test `nrm2(metric - (~m)*metric*m) < MIN_SYMM_TOL`,
embedded sqrt-free as `nrm2Sq < tol^2` (bridged to the Frobenius norm via
`Real.sqrt` in the claim theorem). -/
def latticeAccept (metric : M3 ℚ) (m : M3 ℤ) : Bool :=
  decide (nrm2Sq (metric - mulG (mulG (transpG (castM m)) metric) (castM m)) < tolQ ^ 2)

/-- The accepted lattice symmetries of a metric (loop + conditional push). -/
def latticeSearch (metric : M3 ℚ) : List (M3 ℤ) :=
  latticeCandidates.filter (latticeAccept metric)

/-- `Symmetries::latticeSymmetries`: reduce the basis, enumerate metric
invariant candidate matrices, and conjugate back through the transmission
matrix when the basis was actually reduced. -/
def latticeSymmetries (R : M3 ℚ) : List (M3 ℤ) :=
  let st := reduceBasis R
  let pre := latticeSearch (metricOf st.R)
  if nrm2Sq (st.R - R) > tolQ ^ 2 * nrm2Sq st.R then
    pre.map fun m => mulG (mulG st.T m) st.Tinv
  else pre

theorem mem_spanZ {z : ℤ} (h : z = -1 ∨ z = 0 ∨ z = 1) : z ∈ spanZ := by
  rcases h with h | h | h <;> simp [spanZ, h]

theorem mk3_eta (m : M3 ℤ) :
    mk3 (m 0 0) (m 0 1) (m 0 2) (m 1 0) (m 1 1) (m 1 2) (m 2 0) (m 2 1) (m 2 2) = m := by
  funext r c
  fin_cases r <;> fin_cases c <;> rfl

theorem mem_latticeCandidates (m : M3 ℤ)
    (hm : ∀ i j, m i j = -1 ∨ m i j = 0 ∨ m i j = 1) : m ∈ latticeCandidates := by
  unfold latticeCandidates
  refine List.mem_flatMap.mpr ⟨m 0 0, mem_spanZ (hm 0 0), ?_⟩
  refine List.mem_flatMap.mpr ⟨m 0 1, mem_spanZ (hm 0 1), ?_⟩
  refine List.mem_flatMap.mpr ⟨m 0 2, mem_spanZ (hm 0 2), ?_⟩
  refine List.mem_flatMap.mpr ⟨m 1 0, mem_spanZ (hm 1 0), ?_⟩
  refine List.mem_flatMap.mpr ⟨m 1 1, mem_spanZ (hm 1 1), ?_⟩
  refine List.mem_flatMap.mpr ⟨m 1 2, mem_spanZ (hm 1 2), ?_⟩
  refine List.mem_flatMap.mpr ⟨m 2 0, mem_spanZ (hm 2 0), ?_⟩
  refine List.mem_flatMap.mpr ⟨m 2 1, mem_spanZ (hm 2 1), ?_⟩
  exact List.mem_map.mpr ⟨m 2 2, mem_spanZ (hm 2 2), mk3_eta m⟩

theorem transpG_idMQ : transpG idMQ = idMQ := by
  funext i j
  fin_cases i <;> fin_cases j <;> rfl

theorem latticeAccept_idM (metric : M3 ℚ) : latticeAccept metric idM = true := by
  unfold latticeAccept
  rw [castM_idM, transpG_idMQ, idMQ_mulG, mulG_idMQ, sub_self]
  have hz : nrm2Sq 0 = 0 := by simp [nrm2Sq]
  rw [hz]
  norm_num [tolQ]

theorem idM_mem_latticeSearch (metric : M3 ℚ) : idM ∈ latticeSearch metric :=
  List.mem_filter.mpr ⟨mem_latticeCandidates idM (by decide), latticeAccept_idM metric⟩

theorem idM_mem_latticeSymmetries (R : M3 ℚ) : idM ∈ latticeSymmetries R := by
  unfold latticeSymmetries
  by_cases hred : nrm2Sq ((reduceBasis R).R - R) > tolQ ^ 2 * nrm2Sq (reduceBasis R).R
  · simp only [hred, if_true]
    refine List.mem_map.mpr ⟨idM, idM_mem_latticeSearch _, ?_⟩
    rw [mulG_idM, reduceBasis_TTinv]
  · simp only [hred, if_false]
    exact idM_mem_latticeSearch _

/-! ### Atom-compatibility filter (`Symmetries::basisReduce`) -/

/-- A species: named collection of atom positions (lattice coordinates) and
per-atom move-scale factors. -/
structure Species where
  atpos : List (V3 ℚ)
  moveScale : List ℚ

/-- Search all atoms of the species for an image of `offset + m*(pos1-offset)`
within `circDistanceSquared < MIN_SYMM_TOL`. -/
def atomImageTest (m : M3 ℤ) (offset : V3 ℚ) (sp : Species) (pos1 : V3 ℚ) : Bool :=
  sp.atpos.any fun pos2 =>
    decide (circDistanceSquared (offset + mulMV (castM m) (pos1 - offset)) pos2 < tolQ)

/-- `Symmetries::basisReduce`: keep the lattice symmetries under which every
atom of every species has an image of the same species. -/
def basisReduce (symLattice : List (M3 ℤ)) (species : List Species) (offset : V3 ℚ) :
    List (M3 ℤ) :=
  symLattice.filter fun m =>
    species.all fun sp => sp.atpos.all fun pos1 => atomImageTest m offset sp pos1

theorem mem_basisReduce (symLattice : List (M3 ℤ)) (species : List Species)
    (offset : V3 ℚ) (m : M3 ℤ) :
    m ∈ basisReduce symLattice species offset ↔
      m ∈ symLattice ∧ ∀ sp ∈ species, ∀ pos1 ∈ sp.atpos, ∃ pos2 ∈ sp.atpos,
        circDistanceSquared (offset + mulMV (castM m) (pos1 - offset)) pos2 < tolQ := by
  simp [basisReduce, atomImageTest, List.mem_filter, List.all_eq_true, List.any_eq_true]

theorem idM_mem_basisReduce {symLattice : List (M3 ℤ)} (species : List Species)
    (offset : V3 ℚ) (h : idM ∈ symLattice) : idM ∈ basisReduce symLattice species offset := by
  refine (mem_basisReduce _ _ _ _).mpr ⟨h, ?_⟩
  intro sp _ pos1 hpos1
  refine ⟨pos1, hpos1, ?_⟩
  rw [castM_idM, mulMV_idMQ]
  have : offset + (pos1 - offset) = pos1 := by
    funext i
    simp
  rw [this, circDistanceSquared_self]
  norm_num [tolQ]

/-! ### `Symmetries::sortSymmetries`

The source walks indices `1..n-1` and swaps `sym[0]` with `sym[i]` whenever
`sym[i]` is the identity.  `sortAux x0 rest` carries the current `sym[0]`
while walking the (still untouched) tail. -/

def sortAux : M3 ℤ → List (M3 ℤ) → M3 ℤ × List (M3 ℤ)
  | x0, [] => (x0, [])
  | x0, y :: ys =>
    if y = idM then
      let p := sortAux y ys
      (p.1, x0 :: p.2)
    else
      let p := sortAux x0 ys
      (p.1, y :: p.2)

/-- `Symmetries::sortSymmetries`: move an identity occurrence to the front. -/
def sortSymmetries : List (M3 ℤ) → List (M3 ℤ)
  | [] => []
  | x :: xs => (sortAux x xs).1 :: (sortAux x xs).2

theorem sortAux_perm : ∀ (l : List (M3 ℤ)) (x : M3 ℤ),
    List.Perm ((sortAux x l).1 :: (sortAux x l).2) (x :: l) := by
  intro l
  induction l with
  | nil => intro x; exact List.Perm.refl _
  | cons y ys ih =>
    intro x
    by_cases hy : y = idM
    · subst hy
      simp only [sortAux, if_pos rfl]
      have h1 : List.Perm ((sortAux idM ys).1 :: x :: (sortAux idM ys).2)
          (x :: (sortAux idM ys).1 :: (sortAux idM ys).2) :=
        List.Perm.swap x (sortAux idM ys).1 (sortAux idM ys).2
      have h2 : List.Perm (x :: (sortAux idM ys).1 :: (sortAux idM ys).2) (x :: idM :: ys) :=
        List.Perm.cons x (ih idM)
      exact h1.trans h2
    · simp only [sortAux, hy, if_false]
      have h1 : List.Perm ((sortAux x ys).1 :: y :: (sortAux x ys).2)
          (y :: (sortAux x ys).1 :: (sortAux x ys).2) :=
        List.Perm.swap y (sortAux x ys).1 (sortAux x ys).2
      have h2 : List.Perm (y :: (sortAux x ys).1 :: (sortAux x ys).2) (y :: x :: ys) :=
        List.Perm.cons y (ih x)
      have h3 : List.Perm (y :: x :: ys) (x :: y :: ys) := List.Perm.swap x y ys
      exact h1.trans (h2.trans h3)

theorem sortSymmetries_perm (l : List (M3 ℤ)) : List.Perm (sortSymmetries l) l := by
  cases l with
  | nil => exact List.Perm.refl _
  | cons x xs => exact sortAux_perm xs x

theorem sortAux_fst_idM : ∀ (l : List (M3 ℤ)) (x : M3 ℤ),
    x = idM ∨ idM ∈ l → (sortAux x l).1 = idM := by
  intro l
  induction l with
  | nil =>
    intro x h
    rcases h with h | h
    · exact h
    · cases h
  | cons y ys ih =>
    intro x h
    by_cases hy : y = idM
    · simp only [sortAux, hy, if_true]
      exact ih idM (Or.inl rfl)
    · simp only [sortAux, hy, if_false]
      apply ih x
      rcases h with h | h
      · exact Or.inl h
      · rcases List.mem_cons.mp h with h2 | h2
        · exact absurd h2.symm hy
        · exact Or.inr h2

theorem sortSymmetries_head (l : List (M3 ℤ)) (h : idM ∈ l) :
    sortSymmetries l = idM :: (sortAux (l.headI) l.tail).2 ∧ idM ∈ sortSymmetries l ∧
      sortSymmetries l ≠ [] := by
  cases l with
  | nil => cases h
  | cons x xs =>
    have hfst : (sortAux x xs).1 = idM := by
      apply sortAux_fst_idM
      rcases List.mem_cons.mp h with h2 | h2
      · exact Or.inl h2.symm
      · exact Or.inr h2
    refine ⟨?_, ?_, ?_⟩
    · simp [sortSymmetries, hfst, List.headI, List.tail]
    · simp [sortSymmetries, hfst]
    · simp [sortSymmetries]

/-! ### `Symmetries::checkSymmetries` (manual-mode validation) -/

/-- Whether every atom maps onto an atom of its species under every manually
given matrix (note: no offset here, `mapped_pos1 = m * pos1`). -/
def checkSymmetriesOK (sym : List (M3 ℤ)) (species : List Species) : Bool :=
  sym.all fun m => species.all fun sp => sp.atpos.all fun pos1 =>
    sp.atpos.any fun pos2 =>
      decide (circDistanceSquared (mulMV (castM m) pos1) pos2 < tolQ)

/-! ### `Symmetries::checkFFTbox` -/

/-- Early-exit effectful map (the source loops `die` on the first failure). -/
def mapE {α β : Type} (f : α → Except Unit β) : List α → Except Unit (List β)
  | [] => Except.ok []
  | x :: xs =>
    match f x with
    | Except.error e => Except.error e
    | Except.ok y =>
      match mapE f xs with
      | Except.error e => Except.error e
      | Except.ok ys => Except.ok (y :: ys)

/-- Commensurability test: every entry of `Diag(S) * m` divisible by `S[j]`. -/
def meshDivOK (S : V3 ℤ) (m : M3 ℤ) : Bool :=
  decide (∀ i j : Fin 3, (mulG (diagM S) m) i j % S j = 0)

/-- The mesh-coordinate symmetry matrix `Diag(S) * m * Diag(S)^-1` by
entry-wise exact division. -/
def meshMatrix (S : V3 ℤ) (m : M3 ℤ) : M3 ℤ := fun i j => (mulG (diagM S) m) i j / S j

/-- `Symmetries::checkFFTbox`: fatal error on any non-commensurate entry,
otherwise produce the mesh matrices. -/
def checkFFTbox (S : V3 ℤ) (sym : List (M3 ℤ)) : Except Unit (List (M3 ℤ)) :=
  mapE (fun m => if meshDivOK S m then Except.ok (meshMatrix S m) else Except.error ()) sym

/-! ### `Symmetries::checkKmesh` -/

/-- A k-point with its weight (`QuantumNumber`). -/
structure QNum where
  k : V3 ℚ
  weight : ℚ

/-- Whether `m` maps every k-point onto a k-point of equal weight. -/
def kmeshTest (qnums : List QNum) (m : M3 ℤ) : Bool :=
  qnums.all fun q1 => qnums.any fun q2 =>
    decide (circDistanceSquared (mulMV (castM (transpG m)) q1.k) q2.k < kptTol) &&
    decide (abs (q1.weight - q2.weight) < kptTol)

/-- The subgroup of `sym` leaving the k-mesh invariant. -/
def kmeshSubgroup (sym : List (M3 ℤ)) (qnums : List QNum) : List (M3 ℤ) :=
  sym.filter (kmeshTest qnums)

/-- `Symmetries::checkKmesh` is `const`: it computes the compatible subgroup
and a warning flag, leaving the engine's group untouched (first component). -/
def checkKmesh (sym : List (M3 ℤ)) (qnums : List QNum) : List (M3 ℤ) × Bool :=
  (sym, decide ((kmeshSubgroup sym qnums).length < sym.length))

/-! ### `Symmetries::initAtomMaps` -/

/-- Early-exit effectful fold. -/
def foldE {α σ : Type} (f : σ → α → Except Unit σ) : σ → List α → Except Unit σ
  | acc, [] => Except.ok acc
  | acc, x :: xs =>
    match f acc x with
    | Except.error e => Except.error e
    | Except.ok acc2 => foldE f acc2 xs

/-- The `at2` scan for one `(species, atom, rotation)` triple: every matching
atom is written into the entry (last match wins), a matching atom with a
different move scale is a fatal error, and with no match at all the entry
silently keeps its default value `0`. -/
def atomMapEntry (sp : Species) (at1 : ℕ) (m : M3 ℤ) : Except Unit ℕ :=
  foldE
    (fun acc at2 =>
      if circDistanceSquared (mulMV (castM m) (sp.atpos.getD at1 zeroV))
          (sp.atpos.getD at2 zeroV) < tolQ then
        (if sp.moveScale.getD at1 0 ≠ sp.moveScale.getD at2 0 then Except.error ()
         else Except.ok at2)
      else Except.ok acc)
    0 (List.range sp.atpos.length)

/-- `Symmetries::initAtomMaps` (early return with an empty map when the group
is trivial). -/
def initAtomMaps (sym : List (M3 ℤ)) (species : List Species) :
    Except Unit (List (List (List ℕ))) :=
  if sym.length = 1 then Except.ok []
  else mapE (fun sp =>
    mapE (fun at1 => mapE (fun m => atomMapEntry sp at1 m) sym)
      (List.range sp.atpos.length)) species

/-! ### Symmetry mode and `Symmetries::setup` -/

/-- The symmetry mode selector. -/
inductive SymMode
  | automatic
  | manual
  | nosym
  deriving DecidableEq

/-- Candidate symmetry centers: every atom position and every pairwise
midpoint (the `shouldMoveAtoms` search in `calcSymmetries`). -/
def centerCandidates (species : List Species) : List (V3 ℚ) :=
  species.flatMap fun sp =>
    (List.range sp.atpos.length).flatMap fun n1 =>
      sp.atpos.getD n1 zeroV ::
        (List.range n1).map fun n2 =>
          (1 / 2 : ℚ) • (sp.atpos.getD n1 zeroV + sp.atpos.getD n2 zeroV)

/-- `Symmetries::calcSymmetries`: search lattice symmetries, filter by the
atomic basis, sort the identity to the front; with `shouldMoveAtoms`, die
when some candidate center admits strictly more symmetries. -/
def calcSymmetries (R : M3 ℚ) (species : List Species) (moveAtoms : Bool) :
    Except Unit (List (M3 ℤ)) :=
  if moveAtoms && (centerCandidates species).any
      (fun rp => decide ((sortSymmetries (basisReduce (latticeSymmetries R) species zeroV)).length
        < (basisReduce (latticeSymmetries R) species rp).length)) then
    Except.error ()
  else Except.ok (sortSymmetries (basisReduce (latticeSymmetries R) species zeroV))

/-- The mode switch at the top of `Symmetries::setup`: automatic search,
manual matrices (die when none given, sort, validate), or the trivial group. -/
def symFromMode (mode : SymMode) (symIn : List (M3 ℤ)) (R : M3 ℚ)
    (species : List Species) (moveAtoms : Bool) : Except Unit (List (M3 ℤ)) :=
  match mode with
  | SymMode.automatic => calcSymmetries R species moveAtoms
  | SymMode.manual =>
    if symIn.length = 0 then Except.error ()
    else if checkSymmetriesOK (sortSymmetries symIn) species then
      Except.ok (sortSymmetries symIn)
    else Except.error ()
  | SymMode.nosym => Except.ok [idM]

/-- `Symmetries::setup`: determine the group by mode, then run `checkFFTbox`,
`checkKmesh` and `initAtomMaps`.  Returns the final group, the mesh matrices
and the atom map; `Except.error` models a `die` call. -/
def setup (mode : SymMode) (symIn : List (M3 ℤ)) (R : M3 ℚ) (species : List Species)
    (S : V3 ℤ) (moveAtoms : Bool) (qnums : List QNum) :
    Except Unit (List (M3 ℤ) × List (M3 ℤ) × List (List (List ℕ))) :=
  match symFromMode mode symIn R species moveAtoms with
  | Except.error e => Except.error e
  | Except.ok sym =>
    match checkFFTbox S sym with
    | Except.error e => Except.error e
    | Except.ok symMesh =>
      let km := checkKmesh sym qnums
      match initAtomMaps km.1 species with
      | Except.error e => Except.error e
      | Except.ok amap => Except.ok (km.1, symMesh, amap)

/-! ### `Symmetries::kpointsEquivalent` -/

/-- `Symmetries::kpointsEquivalent`: `false` outright in no-symmetry mode,
otherwise search the group for `circDistanceSquared((~m)*k1, k2) <
MIN_KPT_DISTANCE`. -/
def kpointsEquivalent (mode : SymMode) (sym : List (M3 ℤ)) (k1 k2 : V3 ℚ) : Bool :=
  if mode = SymMode.nosym then false
  else sym.any fun m =>
    decide (circDistanceSquared (mulMV (castM (transpG m)) k1) k2 < kptTol)

/-! ### Scalar-field symmetrization (`symmetrize_sub`)

The grid field is a function from flat indices to values; the symmetry index
table is the list of equivalence classes (each of `nRot` flat indices, the
flattened `symmIndex` array of stride `nRot`). -/

/-- Write `v` into every index of the class, in order. -/
def writeAll (c : List ℕ) (v : ℚ) (x : ℕ → ℚ) : ℕ → ℚ :=
  c.foldl (fun a j => Function.update a j v) x

/-- Process one equivalence class: average the current values over the class
entries and write the average back into each entry. -/
def symmClass (nRot : ℕ) (x : ℕ → ℚ) (c : List ℕ) : ℕ → ℚ :=
  writeAll c ((c.map x).sum / (nRot : ℚ)) x

/-- `symmetrize_sub`: process every equivalence class in order. -/
def symmetrizeScalar (nRot : ℕ) (table : List (List ℕ)) (x : ℕ → ℚ) : ℕ → ℚ :=
  table.foldl (symmClass nRot) x

/-- Two classes are disjoint when no index lies in both. -/
def disjointCl (c d : List ℕ) : Prop := ∀ i ∈ c, i ∉ d

instance : DecidableRel disjointCl := fun c _d => List.decidableBAll _ c

theorem writeAll_apply (c : List ℕ) (v : ℚ) :
    ∀ (x : ℕ → ℚ) (i : ℕ), writeAll c v x i = if i ∈ c then v else x i := by
  induction c with
  | nil => intro x i; simp [writeAll]
  | cons j c ih =>
    intro x i
    have hstep : writeAll (j :: c) v x = writeAll c v (Function.update x j v) := rfl
    rw [hstep, ih]
    by_cases hic : i ∈ c
    · simp [hic, List.mem_cons]
    · by_cases hij : i = j
      · simp [hic, hij, Function.update]
      · simp [hic, hij, Function.update]

theorem symmClass_mem {c : List ℕ} {i : ℕ} (nRot : ℕ) (x : ℕ → ℚ) (h : i ∈ c) :
    symmClass nRot x c i = (c.map x).sum / (nRot : ℚ) := by
  rw [symmClass, writeAll_apply, if_pos h]

theorem symmClass_notMem {c : List ℕ} {i : ℕ} (nRot : ℕ) (x : ℕ → ℚ) (h : i ∉ c) :
    symmClass nRot x c i = x i := by
  rw [symmClass, writeAll_apply, if_neg h]

theorem symmetrizeScalar_notMem (nRot : ℕ) :
    ∀ (table : List (List ℕ)) (x : ℕ → ℚ) (i : ℕ), (∀ c ∈ table, i ∉ c) →
      symmetrizeScalar nRot table x i = x i := by
  intro table
  induction table with
  | nil => intro x i _; rfl
  | cons c0 rest ih =>
    intro x i h
    have h0 : i ∉ c0 := h c0 (List.mem_cons_self c0 rest)
    have hrest : ∀ c ∈ rest, i ∉ c := fun c hc => h c (List.mem_cons_of_mem c0 hc)
    calc symmetrizeScalar nRot (c0 :: rest) x i
        = symmetrizeScalar nRot rest (symmClass nRot x c0) i := rfl
      _ = symmClass nRot x c0 i := ih _ i hrest
      _ = x i := symmClass_notMem nRot x h0

theorem symmetrizeScalar_mem (nRot : ℕ) :
    ∀ (table : List (List ℕ)) (x : ℕ → ℚ) (c : List ℕ) (i : ℕ),
      List.Pairwise disjointCl table → c ∈ table → i ∈ c →
      symmetrizeScalar nRot table x i = (c.map x).sum / (nRot : ℚ) := by
  intro table
  induction table with
  | nil => intro x c i _ hc _; cases hc
  | cons c0 rest ih =>
    intro x c i hpair hc hi
    obtain ⟨hd, hrest⟩ := List.pairwise_cons.mp hpair
    rcases List.mem_cons.mp hc with hc0 | hcr
    · subst hc0
      have hnot : ∀ c2 ∈ rest, i ∉ c2 := fun c2 hc2 => hd c2 hc2 i hi
      calc symmetrizeScalar nRot (c :: rest) x i
          = symmetrizeScalar nRot rest (symmClass nRot x c) i := rfl
        _ = symmClass nRot x c i := symmetrizeScalar_notMem nRot rest _ i hnot
        _ = (c.map x).sum / (nRot : ℚ) := symmClass_mem nRot x hi
    · have hx : ∀ j ∈ c, symmClass nRot x c0 j = x j := by
        intro j hj
        apply symmClass_notMem
        intro hj0
        exact hd c hcr j hj0 hj
      calc symmetrizeScalar nRot (c0 :: rest) x i
          = symmetrizeScalar nRot rest (symmClass nRot x c0) i := rfl
        _ = (c.map (symmClass nRot x c0)).sum / (nRot : ℚ) := ih _ c i hrest hcr hi
        _ = (c.map x).sum / (nRot : ℚ) := by rw [List.map_congr_left hx]

/-! ### Force symmetrization (`Symmetries::symmetrize(IonicGradient&)`) -/

/-- One term of the inner rotation loop: the transpose-transformed force at
the symmetry-image atom, `(~sym[iRot]) * f[sp][atomMap[sp][atom][iRot]]`. -/
def forceTerm (sym : List (M3 ℤ)) (fsp : List (V3 ℚ)) (aspAtom : List ℕ) (iRot : ℕ) : V3 ℚ :=
  mulMV (castM (transpG (sym.getD iRot zeroM))) (fsp.getD (aspAtom.getD iRot 0) 0)

/-- `Symmetries::symmetrize(IonicGradient&)`: accumulate over rotations into
`tempForces`, then divide by the group order (no-op for groups of size <= 1). -/
def symmetrizeForces (sym : List (M3 ℤ)) (amap : List (List (List ℕ)))
    (f : List (List (V3 ℚ))) : List (List (V3 ℚ)) :=
  if sym.length ≤ 1 then f
  else (List.range f.length).map fun sp =>
    ((List.range (f.getD sp []).length).map fun atom =>
      (List.range sym.length).foldl
        (fun acc iRot =>
          acc + forceTerm sym (f.getD sp []) ((amap.getD sp []).getD atom []) iRot) 0).map
      fun v => (1 / (sym.length : ℚ)) • v

/-- Determinant of a 3x3 rational matrix (cofactor expansion). -/
def det3 (A : M3 ℚ) : ℚ :=
  A 0 0 * (A 1 1 * A 2 2 - A 1 2 * A 2 1) -
  A 0 1 * (A 1 0 * A 2 2 - A 1 2 * A 2 0) +
  A 0 2 * (A 1 0 * A 2 1 - A 1 1 * A 2 0)

/-- Inverse of a 3x3 rational matrix via the adjugate (entries divided by the
determinant). -/
def inv3 (A : M3 ℚ) : M3 ℚ :=
  mk3 ((A 1 1 * A 2 2 - A 1 2 * A 2 1) / det3 A)
      ((A 0 2 * A 2 1 - A 0 1 * A 2 2) / det3 A)
      ((A 0 1 * A 1 2 - A 0 2 * A 1 1) / det3 A)
      ((A 1 2 * A 2 0 - A 1 0 * A 2 2) / det3 A)
      ((A 0 0 * A 2 2 - A 0 2 * A 2 0) / det3 A)
      ((A 0 2 * A 1 0 - A 0 0 * A 1 2) / det3 A)
      ((A 1 0 * A 2 1 - A 1 1 * A 2 0) / det3 A)
      ((A 0 1 * A 2 0 - A 0 0 * A 2 1) / det3 A)
      ((A 0 0 * A 1 1 - A 0 1 * A 1 0) / det3 A)

/-- Modelled from the spec: the claimed force symmetrizer, "the average, over
all symmetry operations, of the inverse-transpose-transformed force at the
symmetry-image atom, divided by the group order" — written with the literal
inverse-transpose, for comparison against the source's transpose. -/
def symmetrizeForcesSpec (sym : List (M3 ℤ)) (amap : List (List (List ℕ)))
    (f : List (List (V3 ℚ))) : List (List (V3 ℚ)) :=
  (List.range f.length).map fun sp =>
    (List.range (f.getD sp []).length).map fun atom =>
      (1 / (sym.length : ℚ)) •
        ((List.range sym.length).map fun iRot =>
          mulMV (transpG (inv3 (castM (sym.getD iRot zeroM))))
            ((f.getD sp []).getD (((amap.getD sp []).getD atom []).getD iRot 0) 0)).sum

theorem foldl_add_sum {α : Type} (g : α → V3 ℚ) :
    ∀ (l : List α) (acc : V3 ℚ), l.foldl (fun a t => a + g t) acc = acc + (l.map g).sum := by
  intro l
  induction l with
  | nil => intro acc; simp
  | cons t l ih =>
    intro acc
    rw [List.foldl_cons, ih, List.map_cons, List.sum_cons, add_assoc]

/-! ### Success and failure of the effectful helpers -/

/-- Whether an `Except` computation succeeded (a `die` call is `error`). -/
def isOkE {β : Type} : Except Unit β → Bool
  | Except.ok _ => true
  | Except.error _ => false

theorem isOkE_mapE {α β : Type} (f : α → Except Unit β) :
    ∀ l : List α, isOkE (mapE f l) = l.all fun x => isOkE (f x) := by
  intro l
  induction l with
  | nil => rfl
  | cons x xs ih =>
    rw [List.all_cons, ← ih]
    rcases hfx : f x with e | y
    · simp [mapE, hfx, isOkE]
    · rcases hrest : mapE f xs with e | ys
      · simp [mapE, hfx, hrest, isOkE]
      · simp [mapE, hfx, hrest, isOkE]

theorem mapE_ok_spec {α β : Type} (f : α → Except Unit β) (dα : α) (dβ : β) :
    ∀ (l : List α) (out : List β), mapE f l = Except.ok out →
      out.length = l.length ∧
        ∀ k, k < l.length → f (l.getD k dα) = Except.ok (out.getD k dβ) := by
  intro l
  induction l with
  | nil =>
    intro out h
    cases h
    exact ⟨rfl, fun k hk => absurd hk (by simp)⟩
  | cons x xs ih =>
    intro out h
    rcases hfx : f x with e | y
    · rw [mapE, hfx] at h; cases h
    · rcases hrest : mapE f xs with e | ys
      · rw [mapE, hfx, hrest] at h; cases h
      · rw [mapE, hfx, hrest] at h
        cases h
        obtain ⟨hlen, hk⟩ := ih ys hrest
        refine ⟨by simp [hlen], ?_⟩
        intro k hkk
        cases k with
        | zero => simpa using hfx
        | succ k =>
          have : k < xs.length := by simpa using hkk
          simpa using hk k this

/-- Scan shape of the `at2` loop: on success the result is either the default
(and no atom matched) or a matching atom (the last one). -/
theorem foldE_scan {P Q : ℕ → Prop} [DecidablePred P] [DecidablePred Q] :
    ∀ (l : List ℕ) (acc r : ℕ),
      foldE (fun acc2 at2 =>
          if P at2 then (if Q at2 then Except.error () else Except.ok at2)
          else Except.ok acc2) acc l = Except.ok r →
      (r = acc ∧ ∀ a ∈ l, ¬ P a) ∨ (r ∈ l ∧ P r) := by
  intro l
  induction l with
  | nil =>
    intro acc r h
    cases h
    exact Or.inl ⟨rfl, fun a ha => absurd ha (List.not_mem_nil a)⟩
  | cons x xs ih =>
    intro acc r h
    by_cases hP : P x
    · by_cases hQ : Q x
      · rw [foldE] at h
        simp only [if_pos hP, if_pos hQ] at h
        exact Except.noConfusion h
      · rw [foldE] at h
        simp only [if_pos hP, if_neg hQ] at h
        rcases ih x r h with ⟨hr, _⟩ | ⟨hr, hPr⟩
        · exact Or.inr ⟨by rw [hr]; exact List.mem_cons_self x xs, by rw [hr]; exact hP⟩
        · exact Or.inr ⟨List.mem_cons_of_mem x hr, hPr⟩
    · rw [foldE] at h
      simp only [if_neg hP] at h
      rcases ih acc r h with ⟨hr, hnone⟩ | ⟨hr, hPr⟩
      · refine Or.inl ⟨hr, ?_⟩
        intro a ha
        rcases List.mem_cons.mp ha with rfl | ha2
        · exact hP
        · exact hnone a ha2
      · exact Or.inr ⟨List.mem_cons_of_mem x hr, hPr⟩

/-! ### Helpers for the claim statements -/

/-- The negated identity (a valid point-group matrix with no fixed order-2
relation to sorting). -/
def negM : M3 ℤ := mk3 (-1) 0 0 0 (-1) 0 0 0 (-1)

/-- The cyclic coordinate permutation `(x,y,z) -> (z,x,y)` (a 3-fold
rotation of the cubic lattice). -/
def permM : M3 ℤ := mk3 0 0 1 1 0 0 0 1 0

/-- An empty species, used as an out-of-range access default. -/
def defaultSp : Species := ⟨[], []⟩

/-- The symmetry-group component of a `setup` result (empty on `die`). -/
def symOf (r : Except Unit (List (M3 ℤ) × List (M3 ℤ) × List (List (List ℕ)))) :
    List (M3 ℤ) :=
  match r with
  | Except.ok out => out.1
  | Except.error _ => []

/-- The atom map of an `initAtomMaps` result (empty on `die`). -/
def amapOf (r : Except Unit (List (List (List ℕ)))) : List (List (List ℕ)) :=
  match r with
  | Except.ok a => a
  | Except.error _ => []

theorem getD_map_range {β : Type} (g : ℕ → β) (d : β) {idx k : ℕ} (h : idx < k) :
    ((List.range k).map g).getD idx d = g idx := by
  have hlt : idx < ((List.range k).map g).length := by
    simpa using h
  rw [List.getD_eq_getElem?_getD, List.getElem?_eq_getElem hlt]
  simp

theorem getD_range (d : ℕ) {idx k : ℕ} (h : idx < k) : (List.range k).getD idx d = idx := by
  have hlt : idx < (List.range k).length := by simpa using h
  rw [List.getD_eq_getElem?_getD, List.getElem?_eq_getElem hlt]
  simp

theorem lt_tolQsq_iff_sqrt {a : ℚ} :
    a < tolQ ^ 2 ↔ Real.sqrt (a : ℝ) < 1 / 10000 := by
  rw [Real.sqrt_lt' (by norm_num : (0 : ℝ) < 1 / 10000)]
  have h2 : ((tolQ ^ 2 : ℚ) : ℝ) = (1 / 10000 : ℝ) ^ 2 := by norm_num [tolQ]
  constructor
  · intro h
    rw [← h2]
    exact_mod_cast h
  · intro h
    rw [← h2] at h
    exact_mod_cast h

theorem setup_ok_sym {mode : SymMode} {symIn : List (M3 ℤ)} {R : M3 ℚ}
    {species : List Species} {S : V3 ℤ} {moveAtoms : Bool} {qnums : List QNum}
    {out : List (M3 ℤ) × List (M3 ℤ) × List (List (List ℕ))}
    (hok : setup mode symIn R species S moveAtoms qnums = Except.ok out) :
    symFromMode mode symIn R species moveAtoms = Except.ok out.1 := by
  unfold setup at hok
  rcases h1 : symFromMode mode symIn R species moveAtoms with e | sym
  · rw [h1] at hok
    exact Except.noConfusion hok
  · rw [h1] at hok
    dsimp only at hok
    rcases h2 : checkFFTbox S sym with e | mesh
    · rw [h2] at hok
      exact Except.noConfusion hok
    · rw [h2] at hok
      rcases h3 : initAtomMaps (checkKmesh sym qnums).1 species with e | amap
      · rw [h3] at hok
        exact Except.noConfusion hok
      · rw [h3] at hok
        cases hok
        rfl

/-! ### Claim theorems -/

/-- C1: in the lattice symmetry finder, a 3x3 integer matrix `m` with all
entries in `{-1,0,1}` is accepted into the lattice symmetry list iff the
Frobenius norm of `metric - mᵀ*metric*m` is strictly below `MIN_SYMM_TOL`
(1e-4), where `metric = Rreducedᵗ*Rreduced` is the reduced-basis metric; in
particular every accepted matrix satisfies the metric-invariance bound. -/
theorem claim1_lattice_accept (R : M3 ℚ) (m : M3 ℤ)
    (hm : ∀ i j, m i j = -1 ∨ m i j = 0 ∨ m i j = 1) :
    m ∈ latticeSearch (metricOf (reduceBasis R).R) ↔
      Real.sqrt ((nrm2Sq (metricOf (reduceBasis R).R -
          mulG (mulG (transpG (castM m)) (metricOf (reduceBasis R).R)) (castM m)) : ℚ) : ℝ)
        < 1 / 10000 := by
  rw [← lt_tolQsq_iff_sqrt]
  constructor
  · intro h
    have h2 := (List.mem_filter.mp h).2
    unfold latticeAccept at h2
    exact of_decide_eq_true h2
  · intro h
    refine List.mem_filter.mpr ⟨mem_latticeCandidates m hm, ?_⟩
    unfold latticeAccept
    exact decide_eq_true h

/-- Witness for C1 at the identity lattice and identity candidate. -/
theorem claim1_witness :
    (∀ i j : Fin 3, idM i j = -1 ∨ idM i j = 0 ∨ idM i j = 1) ∧
      (idM ∈ latticeSearch (metricOf (reduceBasis idMQ).R) ↔
        Real.sqrt ((nrm2Sq (metricOf (reduceBasis idMQ).R -
            mulG (mulG (transpG (castM idM)) (metricOf (reduceBasis idMQ).R)) (castM idM)) : ℚ) : ℝ)
          < 1 / 10000) :=
  ⟨by decide, claim1_lattice_accept idMQ idM (by decide)⟩

/-- C2: `basisReduce` returns exactly the candidate matrices under which every
atom of every species has an image of the same species within
`circDistanceSquared < MIN_SYMM_TOL` of `offset + m*(pos1-offset)`; a species
with an empty atom list imposes no constraint. -/
theorem claim2_basisReduce (symLattice : List (M3 ℤ)) (species : List Species)
    (offset : V3 ℚ) (m : M3 ℤ) :
    (m ∈ basisReduce symLattice species offset ↔
      m ∈ symLattice ∧ ∀ sp ∈ species, ∀ pos1 ∈ sp.atpos, ∃ pos2 ∈ sp.atpos,
        circDistanceSquared (offset + mulMV (castM m) (pos1 - offset)) pos2 < tolQ) ∧
    (∀ sp : Species, sp.atpos = [] →
      (sp.atpos.all fun pos1 => atomImageTest m offset sp pos1) = true) :=
  ⟨mem_basisReduce symLattice species offset m, by
    intro sp h
    rw [h]
    rfl⟩

/-- Witness for C2 at a concrete one-matrix, no-species instance. -/
theorem claim2_witness :
    (idM ∈ basisReduce [idM] [] zeroV ↔
      idM ∈ [idM] ∧ ∀ sp ∈ ([] : List Species), ∀ pos1 ∈ sp.atpos, ∃ pos2 ∈ sp.atpos,
        circDistanceSquared (zeroV + mulMV (castM idM) (pos1 - zeroV)) pos2 < tolQ) ∧
    (∀ sp : Species, sp.atpos = [] →
      (sp.atpos.all fun pos1 => atomImageTest idM zeroV sp pos1) = true) :=
  claim2_basisReduce [idM] [] zeroV idM

/-- C8: the basis-reduction loop terminates on every input lattice matrix:
the fuel bound suffices; every accepted elementary transformation strictly
reduces the Frobenius norm `nrm2(Rreduced)` by more than `MIN_SYMM_TOL`; the
squared norm is bounded below by zero; and the loop exits on the first full
sweep that leaves `changed` unset. -/
theorem claim8_reduce_terminates :
    (∀ R : M3 ℚ, (reduceLoop (fuelFor R) (initRState R)).isSome = true) ∧
    (∀ (s : RState) (t : Fin 3 × ℤ × ℤ),
      acceptB (nrm2Sq (mulG s.R (castM (elemD t.1 t.2.1 t.2.2)))) (nrm2Sq s.R) = true →
      Real.sqrt ((nrm2Sq (mulG s.R (castM (elemD t.1 t.2.1 t.2.2))) : ℚ) : ℝ)
        < Real.sqrt ((nrm2Sq s.R : ℚ) : ℝ) - 1 / 10000) ∧
    (∀ A : M3 ℚ, 0 ≤ nrm2Sq A) ∧
    (∀ (n : ℕ) (s : RState), (sweep s).changed = false →
      reduceLoop (n + 1) s = some (sweep s)) := by
  refine ⟨reduceBasis_isSome, ?_, nrm2Sq_nonneg, ?_⟩
  · intro s t h
    exact (acceptB_iff_sqrt _ _ (nrm2Sq_nonneg _)).mp h
  · intro n s h
    simp [reduceLoop, h]

set_option maxRecDepth 100000 in
/-- Witness for C8: a concrete accepting step and a concrete fixpoint exit. -/
theorem claim8_witness :
    ((reduceLoop (fuelFor (mk3 2 (-1) 0 0 1 0 0 0 1)) (initRState (mk3 2 (-1) 0 0 1 0 0 0 1))).isSome
        = true) ∧
    (Real.sqrt ((nrm2Sq (mulG (initRState (mk3 2 (-1) 0 0 1 0 0 0 1)).R
          (castM (elemD (0 : Fin 3) 1 0))) : ℚ) : ℝ)
        < Real.sqrt ((nrm2Sq (initRState (mk3 2 (-1) 0 0 1 0 0 0 1)).R : ℚ) : ℝ) - 1 / 10000) ∧
    (0 ≤ nrm2Sq idMQ) ∧
    reduceLoop 1 (initRState idMQ) = some (sweep (initRState idMQ)) :=
  ⟨claim8_reduce_terminates.1 _,
   claim8_reduce_terminates.2.1 (initRState (mk3 2 (-1) 0 0 1 0 0 0 1)) ((0 : Fin 3), 1, 0)
     (by with_unfolding_all rfl),
   claim8_reduce_terminates.2.2.1 idMQ,
   claim8_reduce_terminates.2.2.2 0 (initRState idMQ) (by with_unfolding_all rfl)⟩

/-- C9: `checkKmesh` never modifies the symmetry group or any other engine
state: the group it hands on is the input group, the warning flag is set iff
the mesh-compatible subgroup is strictly smaller, and the whole `setup`
pipeline result is independent of the k-point mesh. -/
theorem claim9_checkKmesh_frame :
    (∀ (sym : List (M3 ℤ)) (qnums : List QNum), (checkKmesh sym qnums).1 = sym) ∧
    (∀ (sym : List (M3 ℤ)) (qnums : List QNum),
      ((checkKmesh sym qnums).2 = true ↔ (kmeshSubgroup sym qnums).length < sym.length)) ∧
    (∀ (mode : SymMode) (symIn : List (M3 ℤ)) (R : M3 ℚ) (species : List Species)
        (S : V3 ℤ) (moveAtoms : Bool) (qnums qnums2 : List QNum),
      setup mode symIn R species S moveAtoms qnums
        = setup mode symIn R species S moveAtoms qnums2) := by
  refine ⟨fun sym qnums => rfl, fun sym qnums => ?_, fun mode symIn R species S mv q q2 => rfl⟩
  simp [checkKmesh]

/-- Witness for C9 at a concrete group and mesh. -/
theorem claim9_witness : (checkKmesh [idM] []).1 = [idM] :=
  claim9_checkKmesh_frame.1 [idM] []

/-- C10: `kpointsEquivalent` returns `false` outright in no-symmetry mode,
even for identical k-points although the trivial group's identity would pass
the distance test; in any other mode it returns `true` iff some group element
maps `k1` within `MIN_KPT_DISTANCE` of `k2`. -/
theorem claim10_kpointsEquivalent :
    (∀ (sym : List (M3 ℤ)) (k1 k2 : V3 ℚ),
      kpointsEquivalent SymMode.nosym sym k1 k2 = false) ∧
    (∀ k : V3 ℚ, kpointsEquivalent SymMode.nosym [idM] k k = false ∧
      circDistanceSquared (mulMV (castM (transpG idM)) k) k < kptTol) ∧
    (∀ mode : SymMode, mode ≠ SymMode.nosym → ∀ (sym : List (M3 ℤ)) (k1 k2 : V3 ℚ),
      (kpointsEquivalent mode sym k1 k2 = true ↔
        ∃ m ∈ sym, circDistanceSquared (mulMV (castM (transpG m)) k1) k2 < kptTol)) := by
  refine ⟨fun sym k1 k2 => by simp [kpointsEquivalent], fun k => ⟨by simp [kpointsEquivalent], ?_⟩,
    fun mode h sym k1 k2 => ?_⟩
  · rw [transpG_idM, castM_idM, mulMV_idMQ, circDistanceSquared_self]
    norm_num [kptTol]
  · simp [kpointsEquivalent, h, List.any_eq_true]

/-- Witness for C10 in a non-trivial mode at a concrete instance. -/
theorem claim10_witness :
    kpointsEquivalent SymMode.automatic [] zeroV zeroV = true ↔
      ∃ m ∈ ([] : List (M3 ℤ)),
        circDistanceSquared (mulMV (castM (transpG m)) zeroV) zeroV < kptTol :=
  claim10_kpointsEquivalent.2.2 SymMode.automatic (by decide) [] zeroV zeroV

/-- C4: `checkFFTbox` dies iff some group element has an entry of
`Diag(S) * m` not divisible by `S[j]`; otherwise it produces for every
symmetry the mesh matrix `Diag(S)*m*Diag(S)^-1` by entry-wise exact integer
division. -/
theorem claim4_checkFFTbox (S : V3 ℤ) (sym : List (M3 ℤ)) (hS : ∀ j, 0 < S j) :
    (isOkE (checkFFTbox S sym) = false ↔
      ∃ m ∈ sym, ∃ i j : Fin 3, ¬ (S j ∣ mulG (diagM S) m i j)) ∧
    (∀ out, checkFFTbox S sym = Except.ok out →
      out.length = sym.length ∧
        ∀ k, k < sym.length → ∀ i j : Fin 3,
          out.getD k zeroM i j = mulG (diagM S) (sym.getD k zeroM) i j / S j ∧
          S j * out.getD k zeroM i j = mulG (diagM S) (sym.getD k zeroM) i j) := by
  have hdiv : ∀ m : M3 ℤ, meshDivOK S m = false ↔
      ∃ i j : Fin 3, ¬ (S j ∣ mulG (diagM S) m i j) := by
    intro m
    rw [meshDivOK, decide_eq_false_iff_not]
    constructor
    · intro h
      by_contra hcon
      push_neg at hcon
      exact h fun i j => Int.emod_eq_zero_of_dvd (hcon i j)
    · rintro ⟨i, j, hij⟩ hall
      exact hij (Int.dvd_of_emod_eq_zero (hall i j))
  constructor
  · rw [checkFFTbox, isOkE_mapE]
    have hfun : (fun m => isOkE
        (if meshDivOK S m then Except.ok (meshMatrix S m) else Except.error ())) =
        fun m => meshDivOK S m := by
      funext m
      by_cases h : meshDivOK S m = true
      · simp [h, isOkE]
      · simp only [Bool.not_eq_true] at h
        simp [h, isOkE]
    rw [hfun]
    constructor
    · intro h
      have hex : ∃ m ∈ sym, meshDivOK S m = false := by
        by_contra hcon
        push_neg at hcon
        have : (sym.all fun m => meshDivOK S m) = true := by
          rw [List.all_eq_true]
          intro m hm
          cases hb : meshDivOK S m
          · exact absurd hb (hcon m hm)
          · rfl
        rw [this] at h
        cases h
      obtain ⟨m, hm, hf⟩ := hex
      exact ⟨m, hm, (hdiv m).mp hf⟩
    · rintro ⟨m, hm, hex⟩
      have hf : meshDivOK S m = false := (hdiv m).mpr hex
      cases hall : sym.all fun m => meshDivOK S m
      · rfl
      · exfalso
        have := List.all_eq_true.mp hall m hm
        rw [hf] at this
        cases this
  · intro out hok
    obtain ⟨hlen, hk⟩ := mapE_ok_spec _ zeroM zeroM sym out hok
    refine ⟨hlen, ?_⟩
    intro k hkk i j
    have h1 := hk k hkk
    by_cases h : meshDivOK S (sym.getD k zeroM) = true
    · rw [if_pos h] at h1
      have h2 : meshMatrix S (sym.getD k zeroM) = out.getD k zeroM := Except.ok.inj h1
      have hdvd : S j ∣ mulG (diagM S) (sym.getD k zeroM) i j := by
        rw [meshDivOK] at h
        exact Int.dvd_of_emod_eq_zero (of_decide_eq_true h i j)
      rw [← h2]
      exact ⟨rfl, Int.mul_ediv_cancel' hdvd⟩
    · rw [if_neg h] at h1
      exact Except.noConfusion h1

/-- Witness for C4 at a concrete commensurate grid and group. -/
theorem claim4_witness :
    (isOkE (checkFFTbox (mkV 4 4 4) [idM]) = false ↔
      ∃ m ∈ [idM], ∃ i j : Fin 3, ¬ ((mkV 4 4 4) j ∣ mulG (diagM (mkV 4 4 4)) m i j)) ∧
    (∀ out, checkFFTbox (mkV 4 4 4) [idM] = Except.ok out →
      out.length = [idM].length ∧
        ∀ k, k < [idM].length → ∀ i j : Fin 3,
          out.getD k zeroM i j = mulG (diagM (mkV 4 4 4)) ([idM].getD k zeroM) i j / (mkV 4 4 4) j ∧
          (mkV 4 4 4) j * out.getD k zeroM i j
            = mulG (diagM (mkV 4 4 4)) ([idM].getD k zeroM) i j) :=
  claim4_checkFFTbox (mkV 4 4 4) [idM] (by decide)

/-- C7: scalar-field symmetrization over a valid index table (disjoint
classes of `nRot` entries each) is idempotent, and one application replaces
each grid point in a class by the unweighted average of the field over the
class entries. -/
theorem claim7_scalar_idem (nRot : ℕ) (table : List (List ℕ)) (x : ℕ → ℚ)
    (hn : 0 < nRot) (hdisj : List.Pairwise disjointCl table)
    (hlen : ∀ c ∈ table, c.length = nRot) :
    symmetrizeScalar nRot table (symmetrizeScalar nRot table x)
        = symmetrizeScalar nRot table x ∧
      ∀ c ∈ table, ∀ i ∈ c,
        symmetrizeScalar nRot table x i = (c.map x).sum / (nRot : ℚ) := by
  have hmem : ∀ c ∈ table, ∀ i ∈ c,
      symmetrizeScalar nRot table x i = (c.map x).sum / (nRot : ℚ) :=
    fun c hc i hi => symmetrizeScalar_mem nRot table x c i hdisj hc hi
  refine ⟨?_, hmem⟩
  funext i
  by_cases hex : ∃ c ∈ table, i ∈ c
  · obtain ⟨c, hc, hi⟩ := hex
    have hne : (nRot : ℚ) ≠ 0 := Nat.cast_ne_zero.mpr hn.ne'
    have hv : ∀ j ∈ c, symmetrizeScalar nRot table x j = (c.map x).sum / (nRot : ℚ) :=
      fun j hj => hmem c hc j hj
    have hLHS := symmetrizeScalar_mem nRot table (symmetrizeScalar nRot table x) c i
      hdisj hc hi
    rw [hLHS, List.map_congr_left hv]
    have hconst : (c.map fun _ => (c.map x).sum / (nRot : ℚ)).sum
        = (c.length : ℚ) * ((c.map x).sum / (nRot : ℚ)) := by
      rw [List.map_const', List.sum_replicate, nsmul_eq_mul]
    rw [hconst, hlen c hc, mul_div_cancel_left₀ _ hne]
    exact (hv i hi).symm
  · push_neg at hex
    rw [symmetrizeScalar_notMem nRot table _ i hex]

/-- Witness for C7 at a concrete two-class table. -/
theorem claim7_witness :
    symmetrizeScalar 2 [[0, 1]] (symmetrizeScalar 2 [[0, 1]] fun i => (i : ℚ))
        = symmetrizeScalar 2 [[0, 1]] (fun i => (i : ℚ)) ∧
      ∀ c ∈ ([[0, 1]] : List (List ℕ)), ∀ i ∈ c,
        symmetrizeScalar 2 [[0, 1]] (fun i => (i : ℚ)) i
          = (List.map (fun i : ℕ => (i : ℚ)) c).sum / ((2 : ℕ) : ℚ) :=
  claim7_scalar_idem 2 [[0, 1]] (fun i => (i : ℚ)) (by decide)
    (by simp [disjointCl]) (by simp)

/-- C3 (amended): after a completing `setup`, the symmetry group is non-empty
with the identity as its first element in automatic and no-symmetry modes;
in manual mode this holds provided the identity is among the specified
matrices (the code only sorts an existing identity occurrence to the front
and never inserts one). -/
theorem claim3_identity_first (mode : SymMode) (symIn : List (M3 ℤ)) (R : M3 ℚ)
    (species : List Species) (S : V3 ℤ) (moveAtoms : Bool) (qnums : List QNum)
    (out : List (M3 ℤ) × List (M3 ℤ) × List (List (List ℕ)))
    (hok : setup mode symIn R species S moveAtoms qnums = Except.ok out)
    (hid : mode ≠ SymMode.manual ∨ idM ∈ symIn) :
    out.1 ≠ [] ∧ out.1.head? = some idM ∧ idM ∈ out.1 := by
  have hsym := setup_ok_sym hok
  cases mode with
  | automatic =>
    rw [symFromMode, calcSymmetries] at hsym
    by_cases hcond : (moveAtoms && (centerCandidates species).any
        (fun rp => decide ((sortSymmetries (basisReduce (latticeSymmetries R) species zeroV)).length
          < (basisReduce (latticeSymmetries R) species rp).length))) = true
    · rw [if_pos hcond] at hsym
      exact Except.noConfusion hsym
    · rw [if_neg hcond] at hsym
      have hout : out.1 = sortSymmetries (basisReduce (latticeSymmetries R) species zeroV) :=
        (Except.ok.inj hsym).symm
      have hidmem : idM ∈ basisReduce (latticeSymmetries R) species zeroV :=
        idM_mem_basisReduce species zeroV (idM_mem_latticeSymmetries R)
      obtain ⟨heq, hmem, hne⟩ := sortSymmetries_head _ hidmem
      rw [hout]
      exact ⟨hne, by rw [heq]; rfl, hmem⟩
  | manual =>
    have hidIn : idM ∈ symIn := by
      rcases hid with h | h
      · exact absurd rfl h
      · exact h
    rw [symFromMode] at hsym
    by_cases h0 : symIn.length = 0
    · rw [if_pos h0] at hsym
      exact Except.noConfusion hsym
    · rw [if_neg h0] at hsym
      by_cases hchk : checkSymmetriesOK (sortSymmetries symIn) species = true
      · rw [if_pos hchk] at hsym
        have hout : out.1 = sortSymmetries symIn := (Except.ok.inj hsym).symm
        obtain ⟨heq, hmem, hne⟩ := sortSymmetries_head symIn hidIn
        rw [hout]
        exact ⟨hne, by rw [heq]; rfl, hmem⟩
      · rw [if_neg hchk] at hsym
        exact Except.noConfusion hsym
  | nosym =>
    rw [symFromMode] at hsym
    have hout : out.1 = [idM] := (Except.ok.inj hsym).symm
    rw [hout]
    exact ⟨by simp, rfl, by simp⟩

/-- C3 counterexample: a manual-mode setup with group `[-identity]` completes,
yet the resulting group does not contain the identity at all (so neither is
the identity its first element). -/
theorem claim3_counterexample :
    isOkE (setup SymMode.manual [negM] idMQ [] (mkV 4 4 4) false []) = true ∧
    symOf (setup SymMode.manual [negM] idMQ [] (mkV 4 4 4) false []) = [negM] ∧
    ¬ idM ∈ symOf (setup SymMode.manual [negM] idMQ [] (mkV 4 4 4) false []) := by
  have h2 : symOf (setup SymMode.manual [negM] idMQ [] (mkV 4 4 4) false []) = [negM] := by
    with_unfolding_all rfl
  refine ⟨by with_unfolding_all rfl, h2, ?_⟩
  rw [h2]
  decide

/-- Witness for C3 at a concrete no-symmetry-mode setup. -/
theorem claim3_witness :
    (([idM], [meshMatrix (mkV 4 4 4) idM], ([] : List (List (List ℕ)))) :
        List (M3 ℤ) × List (M3 ℤ) × List (List (List ℕ))).1 ≠ [] ∧
    (([idM], [meshMatrix (mkV 4 4 4) idM], ([] : List (List (List ℕ)))) :
        List (M3 ℤ) × List (M3 ℤ) × List (List (List ℕ))).1.head? = some idM ∧
    idM ∈ (([idM], [meshMatrix (mkV 4 4 4) idM], ([] : List (List (List ℕ)))) :
        List (M3 ℤ) × List (M3 ℤ) × List (List (List ℕ))).1 :=
  claim3_identity_first SymMode.nosym [] idMQ [] (mkV 4 4 4) false []
    ([idM], [meshMatrix (mkV 4 4 4) idM], []) (by with_unfolding_all rfl) (Or.inl (by decide))

/-- The single-atom species with the atom at `(1/4, 0, 0)`. -/
def cexSp : Species := ⟨[mkV (1 / 4) 0 0], [1]⟩

/-- C5 (amended): on success (non-trivial group) the atom map is one entry per
species/atom/rotation, and every triple for which at least one atom lies
within tolerance of the rotated position records a valid atom index of the
same species satisfying the distance bound (the last matching atom); a
triple with no matching atom silently keeps the default index 0, and the
only fatal error is a move-scale mismatch between matched atoms. -/
theorem claim5_atomMaps (sym : List (M3 ℤ)) (species : List Species)
    (amap : List (List (List ℕ))) (hok : initAtomMaps sym species = Except.ok amap)
    (hn : ¬ sym.length = 1) :
    amap.length = species.length ∧
    ∀ ks, ks < species.length → ∀ ka, ka < (species.getD ks defaultSp).atpos.length →
      ∀ kr, kr < sym.length →
      (∃ at2, at2 < (species.getD ks defaultSp).atpos.length ∧
        circDistanceSquared
          (mulMV (castM (sym.getD kr zeroM)) ((species.getD ks defaultSp).atpos.getD ka zeroV))
          ((species.getD ks defaultSp).atpos.getD at2 zeroV) < tolQ) →
      ((((amap.getD ks []).getD ka []).getD kr 0) < (species.getD ks defaultSp).atpos.length ∧
        circDistanceSquared
          (mulMV (castM (sym.getD kr zeroM)) ((species.getD ks defaultSp).atpos.getD ka zeroV))
          ((species.getD ks defaultSp).atpos.getD
            (((amap.getD ks []).getD ka []).getD kr 0) zeroV) < tolQ) := by
  rw [initAtomMaps, if_neg hn] at hok
  obtain ⟨hlen1, hk1⟩ := mapE_ok_spec _ defaultSp [] species amap hok
  refine ⟨hlen1, ?_⟩
  intro ks hks ka hka kr hkr hex
  have h2 := hk1 ks hks
  obtain ⟨hlen2, hk2⟩ := mapE_ok_spec _ 0 [] _ _ h2
  have hka2 : ka < (List.range (species.getD ks defaultSp).atpos.length).length := by
    rw [List.length_range]
    exact hka
  have h3 := hk2 ka hka2
  rw [getD_range 0 hka] at h3
  obtain ⟨hlen3, hk3⟩ := mapE_ok_spec _ zeroM 0 sym _ h3
  have h4 := hk3 kr hkr
  rw [atomMapEntry] at h4
  have h5 := foldE_scan
    (P := fun at2 => circDistanceSquared
      (mulMV (castM (sym.getD kr zeroM)) ((species.getD ks defaultSp).atpos.getD ka zeroV))
      ((species.getD ks defaultSp).atpos.getD at2 zeroV) < tolQ)
    (Q := fun at2 => (species.getD ks defaultSp).moveScale.getD ka 0
      ≠ (species.getD ks defaultSp).moveScale.getD at2 0)
    (List.range (species.getD ks defaultSp).atpos.length) 0 _ h4
  rcases h5 with ⟨hr0, hnone⟩ | ⟨hmem, hP⟩
  · obtain ⟨at2, hat2, hdist⟩ := hex
    exact absurd hdist (hnone at2 (List.mem_range.mpr hat2))
  · exact ⟨List.mem_range.mp hmem, hP⟩

/-- C5 counterexample: with group `[1, -1]` and one atom at `(1/4,0,0)` the
`-1` operation has no image within tolerance, yet `initAtomMaps` completes
without any fatal error, silently recording index 0 whose distance violates
the bound. -/
theorem claim5_counterexample :
    isOkE (initAtomMaps [idM, negM] [cexSp]) = true ∧
    amapOf (initAtomMaps [idM, negM] [cexSp]) = [[[0, 0]]] ∧
    ¬ circDistanceSquared (mulMV (castM negM) (mkV (1 / 4) 0 0)) (mkV (1 / 4) 0 0) < tolQ :=
  ⟨by with_unfolding_all rfl, by with_unfolding_all rfl,
   of_decide_eq_false (by with_unfolding_all rfl)⟩

/-- Witness for C5 at the concrete group `[1, -1]` and atom with an image
under the identity. -/
theorem claim5_witness :
    ((([[[0, 0]]].getD 0 []).getD 0 []).getD 0 0) < (([cexSp].getD 0 defaultSp)).atpos.length ∧
    circDistanceSquared
      (mulMV (castM (([idM, negM] : List (M3 ℤ)).getD 0 zeroM))
        (([cexSp].getD 0 defaultSp).atpos.getD 0 zeroV))
      (([cexSp].getD 0 defaultSp).atpos.getD
        ((([[[0, 0]]].getD 0 []).getD 0 []).getD 0 0) zeroV) < tolQ :=
  (claim5_atomMaps [idM, negM] [cexSp] [[[0, 0]]] (by with_unfolding_all rfl)
      (by decide)).2
    0 (by decide) 0 (of_decide_eq_true (by with_unfolding_all rfl)) 0 (by decide)
    ⟨0, of_decide_eq_true (by with_unfolding_all rfl),
      of_decide_eq_true (by with_unfolding_all rfl)⟩

/-- Sanity check: `inv3` really inverts the cyclic permutation matrix used in
the C6 comparison. -/
theorem inv3_permM_check : mulG (castM permM) (inv3 (castM permM)) = idMQ := by
  funext i j
  fin_cases i <;> fin_cases j <;> with_unfolding_all rfl

/-- The cyclic atom map of three atoms permuted by `permM`. -/
def cexAmap : List (List (List ℕ)) := [[[0, 1, 2], [1, 2, 0], [2, 0, 1]]]

/-- A force field: only atom 1 carries a force. -/
def cexF : List (List (V3 ℚ)) := [[mkV 0 0 0, mkV 1 0 0, mkV 0 0 0]]

/-- C6 counterexample: for the cyclic group `[1, P, P^2]` the source applies
the plain transpose `~sym[iRot]`, which differs from the claimed
inverse-transpose transformation. -/
theorem claim6_counterexample :
    1 < ([idM, permM, mulG permM permM] : List (M3 ℤ)).length ∧
    symmetrizeForces [idM, permM, mulG permM permM] cexAmap cexF
      ≠ symmetrizeForcesSpec [idM, permM, mulG permM permM] cexAmap cexF :=
  ⟨by decide, of_decide_eq_false (by with_unfolding_all rfl)⟩

/-- C6 (amended): for a group with more than one element, the force
symmetrizer replaces each atom's force by the sum over all symmetry
operations of the transpose-transformed force at that atom's symmetry-image
atom (via the atom map), divided by the group order. -/
theorem claim6_forces (sym : List (M3 ℤ)) (amap : List (List (List ℕ)))
    (f : List (List (V3 ℚ))) (hn : 1 < sym.length) (sp atom : ℕ)
    (hsp : sp < f.length) (hatom : atom < (f.getD sp []).length) :
    ((symmetrizeForces sym amap f).getD sp []).getD atom 0 =
      (1 / (sym.length : ℚ)) •
        ((List.range sym.length).map fun iRot =>
          mulMV (castM (transpG (sym.getD iRot zeroM)))
            ((f.getD sp []).getD (((amap.getD sp []).getD atom []).getD iRot 0) 0)).sum := by
  rw [symmetrizeForces, if_neg (by omega)]
  rw [getD_map_range _ _ hsp]
  rw [List.map_map]
  rw [getD_map_range _ _ hatom]
  show (1 / (sym.length : ℚ)) •
      ((List.range sym.length).foldl
        (fun acc iRot =>
          acc + forceTerm sym (f.getD sp []) ((amap.getD sp []).getD atom []) iRot) 0) = _
  rw [foldl_add_sum (forceTerm sym (f.getD sp []) ((amap.getD sp []).getD atom []))
    (List.range sym.length) 0]
  rw [zero_add]
  rfl

/-- Witness for C6 at the concrete cyclic instance. -/
theorem claim6_witness :
    ((symmetrizeForces [idM, permM, mulG permM permM] cexAmap cexF).getD 0 []).getD 1 0 =
      (1 / (([idM, permM, mulG permM permM] : List (M3 ℤ)).length : ℚ)) •
        ((List.range ([idM, permM, mulG permM permM] : List (M3 ℤ)).length).map fun iRot =>
          mulMV (castM (transpG (([idM, permM, mulG permM permM] : List (M3 ℤ)).getD iRot zeroM)))
            ((cexF.getD 0 []).getD (((cexAmap.getD 0 []).getD 1 []).getD iRot 0) 0)).sum :=
  claim6_forces [idM, permM, mulG permM permM] cexAmap cexF (by decide) 0 1
    (by decide) (of_decide_eq_true (by with_unfolding_all rfl))
